import Mathlib

/-!
Verification of the BiomePruner log-entry segmenter, shallowly embedded from
the three near-duplicate Python implementations:

  * `src/minecraft_log_parser.py` (`MinecraftLogParser.parse_log`)
  * `src/claude_tooling/scripts/run_automated_tests.py` (same loop, copied)
  * `src/claude_tooling/scripts/log_parser.py` (tooling variant: matches the
    rstripped line and additionally tracks BiomePruner tag matches)

Lines are modelled as `List Char`. The header regex
`^\[([^\]]+)\]\s*\[([^\]]+)/(WARN|ERROR|FATAL)\]` is translated operationally:
each greedy piece of the pattern is deterministic except the second capture
group, whose greedy backtracking is reproduced by `tryCatSplit` (longest
category first, exactly as the regex engine backtracks).
-/

/-- Severity levels recognised by the header pattern, alternation
`(WARN|ERROR|FATAL)` in all three sources. -/
inductive Level where
  | WARN
  | ERROR
  | FATAL
deriving DecidableEq, Repr

/-- The literal characters of each alternative of the level alternation. -/
def levelChars : Level → List Char
  | Level.WARN => ['W', 'A', 'R', 'N']
  | Level.ERROR => ['E', 'R', 'R', 'O', 'R']
  | Level.FATAL => ['F', 'A', 'T', 'A', 'L']

/-- Python's whitespace set: what `str.isspace` accepts per character, which is
also what `re`'s `\s` matches for `str` patterns and what `str.rstrip()`
strips (ASCII whitespace, the C1 separators, and the Unicode space
characters). -/
def pyIsSpace (c : Char) : Bool :=
  c = ' ' || c = '\t' || c = '\n' || c = '\x0b' || c = '\x0c' || c = '\r' ||
  c = '\x1c' || c = '\x1d' || c = '\x1e' || c = '\x1f' || c = '\x85' ||
  c = '\xa0' || c = '\u1680' || ('\u2000' ≤ c && c ≤ '\u200a') ||
  c = '\u2028' || c = '\u2029' || c = '\u202f' || c = '\u205f' || c = '\u3000'

/-- Python `str.rstrip()`: drop trailing whitespace. -/
def rstrip (s : List Char) : List Char :=
  (s.reverse.dropWhile pyIsSpace).reverse

/-- `\[([^\]]+)\]`-style scanning: split a string at its first `]`, returning
the (possibly empty) run of non-`]` characters before it and the remainder
after it; `none` when the string has no `]`.  Greedy `[^\]]+` followed by `\]`
is deterministic: the group can neither cross nor stop short of the first
`]`. -/
def splitAtRB : List Char → Option (List Char × List Char)
  | [] => none
  | c :: cs =>
    if c = ']' then some ([], cs)
    else
      match splitAtRB cs with
      | some (pre, post) => some (c :: pre, post)
      | none => none

/-- Which alternative of `(WARN|ERROR|FATAL)` a string is, exactly. -/
def levelOfChars (s : List Char) : Option Level :=
  if s = ['W', 'A', 'R', 'N'] then some Level.WARN
  else if s = ['E', 'R', 'R', 'O', 'R'] then some Level.ERROR
  else if s = ['F', 'A', 'T', 'A', 'L'] then some Level.FATAL
  else none

/-- Greedy backtracking of `([^\]]+)/(WARN|ERROR|FATAL)\]` inside the second
bracket's content `C` (the characters strictly before the first `]` closing
that bracket): try the longest candidate for the group first, i.e. the split
at the latest `/`; the part after that `/` must be exactly one level word,
because the following `\]` has to land on the `]` that ends `C`. -/
def tryCatSplit (C : List Char) : Nat → Option (List Char × Level)
  | 0 => none
  | k + 1 =>
    match C.drop (k + 1) with
    | c :: rest =>
      if c = '/' then
        match levelOfChars rest with
        | some lvl => some (C.take (k + 1), lvl)
        | none => tryCatSplit C k
      else tryCatSplit C k
    | [] => tryCatSplit C k

/-- The capture of groups 2 and 3 out of the second bracket's content. -/
def matchCatLevel (C : List Char) : Option (List Char × Level) :=
  tryCatSplit C (C.length - 1)

/-- `re.match` of `^\[([^\]]+)\]\s*\[([^\]]+)/(WARN|ERROR|FATAL)\]` against a
line, returning the captured (timestamp, category, level) when the pattern
matches a prefix of the line. -/
def matchHeader (line : List Char) : Option (List Char × List Char × Level) :=
  match line with
  | [] => none
  | c :: r1 =>
    if c = '[' then
      match splitAtRB r1 with
      | some (ts, r2) =>
        if ts = [] then none
        else
          match r2.dropWhile pyIsSpace with
          | d :: r3 =>
            if d = '[' then
              match splitAtRB r3 with
              | some (c2, _) =>
                match matchCatLevel c2 with
                | some (cat, lvl) => some (ts, cat, lvl)
                | none => none
              | none => none
            else none
          | [] => none
      | none => none
    else none

/-- `pat` is a leading segment of `s` (Python `str.startswith`). -/
def leadsWith : List Char → List Char → Bool
  | [], _ => true
  | _ :: _, [] => false
  | p :: ps, c :: cs => p = c && leadsWith ps cs

/-- Python's `in` on strings: `pat` occurs contiguously somewhere in `s`. -/
def hasSub (pat : List Char) : List Char → Bool
  | [] => leadsWith pat []
  | c :: cs => leadsWith pat (c :: cs) || hasSub pat cs

/-- `line.startswith('[')`. -/
def startsLB : List Char → Bool
  | [] => false
  | c :: _ => c = '['

/-- The boundary heuristic of all three sources:
`line.startswith('[') and '] [' in line`. -/
def boundary (line : List Char) : Bool :=
  startsLB line && hasSub [']', ' ', '['] line

/-- ASCII lowering, modelling the case folding `re.IGNORECASE` performs on the
ASCII-only pattern `biomepruner|BiomePruner`. -/
def lowerAscii (c : Char) : Char :=
  if 'A' ≤ c && c ≤ 'Z' then Char.ofNat (c.toNat + 32) else c

/-- `re.compile(r'biomepruner|BiomePruner', re.IGNORECASE).search(s)` is
truthy: `s` contains `biomepruner` case-insensitively. -/
def bioMatch (s : List Char) : Bool :=
  hasSub ("biomepruner".toList) (s.map lowerAscii)

/-- One extracted diagnostic record, the dict built by
`minecraft_log_parser.py` (and, field-for-field, by
`run_automated_tests.py`). -/
structure LogEntry where
  line_number : Nat
  timestamp : List Char
  category : List Char
  level : Level
  content : List (List Char)
deriving DecidableEq, Repr

/-- One iteration of the `for i, line in enumerate(lines)` loop of
`minecraft_log_parser.py` (lines 33-58): state is (entries so far, open
accumulator), the pair argument is (0-based index, raw line). -/
def segStep (st : List LogEntry × Option LogEntry) (p : Nat × List Char) :
    List LogEntry × Option LogEntry :=
  match matchHeader p.2 with
  | some (ts, cat, lvl) =>
    (match st.2 with
     | some e => st.1 ++ [e]
     | none => st.1,
     some { line_number := p.1 + 1, timestamp := ts, category := cat,
            level := lvl, content := [rstrip p.2] })
  | none =>
    match st.2 with
    | some e =>
      if boundary p.2 then (st.1 ++ [e], none)
      else (st.1, some { e with content := e.content ++ [rstrip p.2] })
    | none => st

/-- The whole loop, carrying the 0-based index like `enumerate`. -/
def segRun (i : Nat) (st : List LogEntry × Option LogEntry) :
    List (List Char) → List LogEntry × Option LogEntry
  | [] => st
  | line :: rest => segRun (i + 1) (segStep st (i, line)) rest

/-- `parse_log`'s effect on `self.entries` once the lines are read: the loop
starts from the entries already stored on the instance (`prev`, `[]` for a
fresh instance since `__init__` sets `self.entries = []`; `parse_log` itself
never clears it) with no open accumulator, and a still-open accumulator is
appended after the loop. -/
def parseLogEntries (prev : List LogEntry) (lines : List (List Char)) :
    List LogEntry :=
  let st := segRun 0 (prev, none) lines
  match st.2 with
  | some e => st.1 ++ [e]
  | none => st.1

/-- The entry sequence a fresh parser extracts from `lines`. -/
def segmentLines (lines : List (List Char)) : List LogEntry :=
  parseLogEntries [] lines

/-- The `parse_log` method of `minecraft_log_parser.py` (lines 16-64): a
missing log file (`source = none`) is reported as `False` with the stored
entries untouched; otherwise the file is read with `errors='replace'` (which
never raises; its lines are the `some` payload) and the total segmentation
pass runs.  The returned pair is (the boolean result, `self.entries` after the
call). -/
def parse_log (entries0 : List LogEntry) (source : Option (List (List Char))) :
    Bool × List LogEntry :=
  match source with
  | none => (false, entries0)
  | some lines => (true, parseLogEntries entries0 lines)

/-- One entry of the tooling variant `log_parser.py`, which also carries the
`is_biomepruner` flag and names group 2 `thread_category`. -/
structure LogEntryT where
  line_number : Nat
  timestamp : List Char
  thread_category : List Char
  level : Level
  content : List (List Char)
  is_biomepruner : Bool
deriving DecidableEq, Repr

/-- One element of `self.biomepruner_messages` in `log_parser.py`. -/
structure TagMsg where
  line_number : Nat
  content : List Char
deriving DecidableEq, Repr

/-- Forget the tooling-only flag and field name, for comparison with the base
implementations. -/
def LogEntryT.toBase (e : LogEntryT) : LogEntry :=
  { line_number := e.line_number, timestamp := e.timestamp,
    category := e.thread_category, level := e.level, content := e.content }

/-- One iteration of the loop of `log_parser.py` (lines 66-107): the line is
rstripped once (`line_stripped`), scanned for the BiomePruner pattern into the
flat message list, and the header/boundary tests run against the rstripped
line.  State is (entries, biomepruner_messages, open accumulator). -/
def segStepT (st : List LogEntryT × List TagMsg × Option LogEntryT)
    (p : Nat × List Char) :
    List LogEntryT × List TagMsg × Option LogEntryT :=
  let ls := rstrip p.2
  let ms := if bioMatch ls then st.2.1 ++ [⟨p.1 + 1, ls⟩] else st.2.1
  match matchHeader ls with
  | some (ts, cat, lvl) =>
    (match st.2.2 with
     | some e => st.1 ++ [e]
     | none => st.1,
     ms,
     some { line_number := p.1 + 1, timestamp := ts, thread_category := cat,
            level := lvl, content := [ls], is_biomepruner := bioMatch ls })
  | none =>
    match st.2.2 with
    | some e =>
      if boundary ls then (st.1 ++ [e], ms, none)
      else
        (st.1, ms,
         some { e with
                content := e.content ++ [ls]
                is_biomepruner := e.is_biomepruner || bioMatch ls })
    | none => (st.1, ms, none)

/-- The tooling loop with `enumerate`'s index. -/
def segRunT (i : Nat) (st : List LogEntryT × List TagMsg × Option LogEntryT) :
    List (List Char) → List LogEntryT × List TagMsg × Option LogEntryT
  | [] => st
  | line :: rest => segRunT (i + 1) (segStepT st (i, line)) rest

/-- `log_parser.py`'s `parse_log` on in-memory lines, from a fresh instance:
the final (entries, biomepruner_messages) after closing a still-open
accumulator. -/
def segmentT (lines : List (List Char)) : List LogEntryT × List TagMsg :=
  let st := segRunT 0 ([], [], none) lines
  (match st.2.2 with
   | some e => st.1 ++ [e]
   | none => st.1,
   st.2.1)

/-- One iteration of the loop of `run_automated_tests.py` (lines 87-113),
which duplicates `minecraft_log_parser.py`'s loop verbatim. -/
def segStepRT (st : List LogEntry × Option LogEntry) (p : Nat × List Char) :
    List LogEntry × Option LogEntry :=
  match matchHeader p.2 with
  | some (ts, cat, lvl) =>
    (match st.2 with
     | some e => st.1 ++ [e]
     | none => st.1,
     some { line_number := p.1 + 1, timestamp := ts, category := cat,
            level := lvl, content := [rstrip p.2] })
  | none =>
    match st.2 with
    | some e =>
      if boundary p.2 then (st.1 ++ [e], none)
      else (st.1, some { e with content := e.content ++ [rstrip p.2] })
    | none => st

/-- The loop of `run_automated_tests.py`. -/
def segRunRT (i : Nat) (st : List LogEntry × Option LogEntry) :
    List (List Char) → List LogEntry × Option LogEntry
  | [] => st
  | line :: rest => segRunRT (i + 1) (segStepRT st (i, line)) rest

/-- `run_automated_tests.py`'s extraction from a fresh instance. -/
def segmentRT (lines : List (List Char)) : List LogEntry :=
  let st := segRunRT 0 ([], none) lines
  match st.2 with
  | some e => st.1 ++ [e]
  | none => st.1

/-- All content lines of a list of entries, in order. -/
def allContent : List LogEntry → List (List Char)
  | [] => []
  | e :: es => e.content ++ allContent es

/-- Content of the open accumulator, if any. -/
def openContent : Option LogEntry → List (List Char)
  | some e => e.content
  | none => []

/-- All content lines owned by a loop state: closed entries then the open
accumulator. -/
def flatState (st : List LogEntry × Option LogEntry) : List (List Char) :=
  allContent st.1 ++ openContent st.2

/-- A WARN header line. -/
def demoLineW : List Char := "[12:00:00] [Server/WARN] boom".toList

/-- An INFO line that triggers the boundary heuristic but not the header
pattern. -/
def demoInfoLine : List Char := "[12:00:05] [Server/INFO] x".toList

/-- The entry the WARN header line opens. -/
def demoEntryW : LogEntry :=
  { line_number := 1, timestamp := "12:00:00".toList,
    category := "Server".toList, level := Level.WARN,
    content := [demoLineW] }

/-- Spec-side restatement of the header condition (section 4.1 step 1 of the
spec): the line starts with a bracketed span capturing a nonempty timestamp,
immediately followed (up to whitespace, as the regex's `\s*` allows) by a
second bracketed span of the form `<category>/<LEVEL>` with `LEVEL` exactly
one of WARN, ERROR, FATAL. -/
def headerSpec (line : List Char) : Prop :=
  ∃ ts sp cat lvl rest,
    line =
      '[' :: (ts ++ ']' ::
        (sp ++ '[' :: (cat ++ '/' :: (levelChars lvl ++ ']' :: rest)))) ∧
    ts ≠ [] ∧ ']' ∉ ts ∧ (∀ c ∈ sp, pyIsSpace c = true) ∧ cat ≠ [] ∧ ']' ∉ cat

/-- A first continuation line. -/
def demoCont1 : List Char := "  at foo".toList

/-- A second continuation line. -/
def demoCont2 : List Char := "  at bar".toList

/-- Spec-side restatement of the tag scan (section 4.1 step 6 of the spec):
walk ALL lines, keeping 1-based line number and trimmed content of every line
that contains the filter case-insensitively, ignoring entry structure
altogether. -/
def tagScanSpec : Nat → List (List Char) → List TagMsg
  | _, [] => []
  | i, line :: rest =>
    (if bioMatch (rstrip line) then [⟨i + 1, rstrip line⟩] else []) ++
      tagScanSpec (i + 1) rest

/-- A WARN header line mentioning BiomePruner. -/
def demoBioLine : List Char :=
  "[12:00:00] [Worker/WARN] BiomePruner active".toList

/-- The tagged entry that line opens. -/
def demoBioEntry : LogEntryT :=
  { line_number := 1, timestamp := "12:00:00".toList,
    thread_category := "Worker".toList, level := Level.WARN,
    content := [demoBioLine], is_biomepruner := true }

example :
    matchHeader ("[12:00:00] [Server/WARN] test".toList) =
      some ("12:00:00".toList, "Server".toList, Level.WARN) := by decide

example : matchHeader ("[12:00:05] [Server/INFO] x".toList) = none := by decide

example :
    matchHeader ("[t] [A/B/WARN] m".toList) =
      some ("t".toList, "A/B".toList, Level.WARN) := by decide

example :
    matchHeader ("[t] [A/WARN/FATAL] m".toList) =
      some ("t".toList, "A/WARN".toList, Level.FATAL) := by decide

example : boundary ("[12:00:05] [Server/INFO] x".toList) = true := by decide

example : bioMatch ("saw BIOMEPRUNER once".toList) = true := by decide

example :
    segmentLines ["[12:00:00] [Server/WARN] boom\n".toList, "  at foo\n".toList] =
      [{ line_number := 1, timestamp := "12:00:00".toList,
         category := "Server".toList, level := Level.WARN,
         content := ["[12:00:00] [Server/WARN] boom".toList,
                     "  at foo".toList] }] := by decide

/-! ## Characterising the pieces of the header regex -/

theorem splitAtRB_sound {s : List Char} :
    ∀ {pre post : List Char}, splitAtRB s = some (pre, post) →
      s = pre ++ ']' :: post ∧ ']' ∉ pre := by
  induction s with
  | nil => intro pre post h; simp [splitAtRB] at h
  | cons c cs ih =>
    intro pre post h
    by_cases hc : c = ']'
    · subst hc
      simp [splitAtRB] at h
      obtain ⟨hpre, hpost⟩ := h
      subst hpre; subst hpost
      simp
    · cases hcs : splitAtRB cs with
      | none => simp [splitAtRB, hc, hcs] at h
      | some pr =>
        obtain ⟨pre0, post0⟩ := pr
        simp [splitAtRB, hc, hcs] at h
        obtain ⟨hpre, hpost⟩ := h
        obtain ⟨hs, hnin⟩ := ih hcs
        subst hpost
        rw [← hpre, hs]
        refine ⟨rfl, ?_⟩
        intro hm
        rcases List.mem_cons.mp hm with he | hm0
        · exact hc he.symm
        · exact hnin hm0

theorem splitAtRB_complete {pre : List Char} (post : List Char)
    (h : ']' ∉ pre) : splitAtRB (pre ++ ']' :: post) = some (pre, post) := by
  induction pre with
  | nil => simp [splitAtRB]
  | cons c cs ih =>
    have hc : ¬ c = ']' := fun e => h (by simp [e])
    have hcs : ']' ∉ cs := fun m => h (List.mem_cons_of_mem _ m)
    simp [splitAtRB, hc, ih hcs]

theorem splitAtRB_isNone {s : List Char} :
    splitAtRB s = none ↔ ']' ∉ s := by
  induction s with
  | nil => simp [splitAtRB]
  | cons c cs ih =>
    by_cases hc : c = ']'
    · subst hc; simp [splitAtRB]
    · cases hcs : splitAtRB cs with
      | none =>
        simp only [splitAtRB, if_neg hc, hcs]
        simp [List.mem_cons, fun e => hc (Eq.symm e), ih.mp hcs]
        exact fun e => hc e.symm
      | some pr =>
        obtain ⟨pre0, post0⟩ := pr
        simp only [splitAtRB, if_neg hc, hcs]
        constructor
        · intro h; cases h
        · intro h
          exfalso
          exact h (by rw [(splitAtRB_sound hcs).1]; simp)

theorem levelOfChars_sound {s : List Char} {lvl : Level}
    (h : levelOfChars s = some lvl) : s = levelChars lvl := by
  unfold levelOfChars at h
  split_ifs at h with h1 h2 h3 <;>
    simp_all [levelChars] <;> cases h <;> simp [levelChars, *]

theorem levelOfChars_complete (lvl : Level) :
    levelOfChars (levelChars lvl) = some lvl := by
  cases lvl <;> decide

theorem rb_not_mem_levelChars (lvl : Level) : ']' ∉ levelChars lvl := by
  cases lvl <;> decide

theorem tryCatSplit_hit {C : List Char} {k : Nat} {rest : List Char}
    {lvl : Level} (hd : C.drop (k + 1) = '/' :: rest)
    (hl : levelOfChars rest = some lvl) :
    tryCatSplit C (k + 1) = some (C.take (k + 1), lvl) := by
  rw [tryCatSplit, hd]; simp [hl]

theorem tryCatSplit_noLevel {C : List Char} {k : Nat} {rest : List Char}
    (hd : C.drop (k + 1) = '/' :: rest) (hl : levelOfChars rest = none) :
    tryCatSplit C (k + 1) = tryCatSplit C k := by
  rw [tryCatSplit, hd]; simp [hl]

theorem tryCatSplit_noSlash {C : List Char} {k : Nat} {c : Char}
    {rest : List Char} (hd : C.drop (k + 1) = c :: rest) (hc : ¬ c = '/') :
    tryCatSplit C (k + 1) = tryCatSplit C k := by
  rw [tryCatSplit, hd]; simp [hc]

theorem tryCatSplit_offEnd {C : List Char} {k : Nat}
    (hd : C.drop (k + 1) = []) : tryCatSplit C (k + 1) = tryCatSplit C k := by
  rw [tryCatSplit, hd]

theorem tryCatSplit_sound {C : List Char} :
    ∀ {k : Nat} {cat : List Char} {lvl : Level},
      tryCatSplit C k = some (cat, lvl) →
      C = cat ++ '/' :: levelChars lvl ∧ cat ≠ [] := by
  intro k
  induction k with
  | zero => intro cat lvl h; simp [tryCatSplit] at h
  | succ k ih =>
    intro cat lvl h
    cases hd : C.drop (k + 1) with
    | nil => rw [tryCatSplit_offEnd hd] at h; exact ih h
    | cons c rest =>
      by_cases hc : c = '/'
      · subst hc
        cases hl : levelOfChars rest with
        | none => rw [tryCatSplit_noLevel hd hl] at h; exact ih h
        | some lvl0 =>
          rw [tryCatSplit_hit hd hl] at h
          simp only [Option.some.injEq, Prod.mk.injEq] at h
          obtain ⟨hcat, hlvl⟩ := h
          subst hcat; subst hlvl
          constructor
          · rw [← levelOfChars_sound hl, ← hd]
            exact (List.take_append_drop (k + 1) C).symm
          · have hlen : k + 1 < C.length := by
              by_contra hle
              rw [List.drop_eq_nil_iff.mpr (Nat.le_of_not_lt hle)] at hd
              cases hd
            apply List.ne_nil_of_length_pos
            rw [List.length_take]
            omega
      · rw [tryCatSplit_noSlash hd hc] at h
        exact ih h

theorem tryCatSplit_complete {C cat : List Char} {lvl : Level}
    (hC : C = cat ++ '/' :: levelChars lvl) (hne : cat ≠ []) :
    ∀ {k : Nat}, cat.length ≤ k → (tryCatSplit C k).isSome = true := by
  intro k
  induction k with
  | zero =>
    intro hk
    exact absurd (List.eq_nil_of_length_eq_zero (Nat.le_zero.mp hk)) hne
  | succ k ih =>
    intro hk
    rcases Nat.lt_or_ge cat.length (k + 1) with hlt | hge
    · have hk' : cat.length ≤ k := Nat.lt_succ_iff.mp hlt
      cases hd : C.drop (k + 1) with
      | nil => rw [tryCatSplit_offEnd hd]; exact ih hk'
      | cons c rest =>
        by_cases hc : c = '/'
        · subst hc
          cases hl : levelOfChars rest with
          | none => rw [tryCatSplit_noLevel hd hl]; exact ih hk'
          | some lvl0 => rw [tryCatSplit_hit hd hl]; rfl
        · rw [tryCatSplit_noSlash hd hc]; exact ih hk'
    · have hkeq : cat.length = k + 1 := Nat.le_antisymm hk hge
      have hd : C.drop (k + 1) = '/' :: levelChars lvl := by
        rw [hC, ← hkeq, List.drop_left]
      rw [tryCatSplit_hit hd (levelOfChars_complete lvl)]
      rfl

theorem goodSplit_unique {C cat1 cat2 : List Char} {lvl1 lvl2 : Level}
    (h1 : C = cat1 ++ '/' :: levelChars lvl1)
    (h2 : C = cat2 ++ '/' :: levelChars lvl2) :
    cat1 = cat2 ∧ lvl1 = lvl2 := by
  have h := congrArg List.reverse (h1.symm.trans h2)
  rw [List.reverse_append, List.reverse_append, List.reverse_cons,
      List.reverse_cons, List.append_assoc, List.append_assoc] at h
  cases lvl1 <;> cases lvl2 <;>
    simp only [levelChars, List.reverse_cons, List.reverse_nil,
      List.nil_append, List.singleton_append, List.cons_append,
      List.cons.injEq, List.nil_append] at h <;>
    simp_all [List.reverse_inj]

theorem matchCatLevel_iff {C cat : List Char} {lvl : Level} :
    matchCatLevel C = some (cat, lvl) ↔
      (C = cat ++ '/' :: levelChars lvl ∧ cat ≠ []) := by
  constructor
  · intro h; exact tryCatSplit_sound h
  · rintro ⟨hC, hne⟩
    have hlen : cat.length ≤ C.length - 1 := by
      have := congrArg List.length hC
      simp [List.length_append] at this
      omega
    have hs := tryCatSplit_complete hC hne hlen
    rw [matchCatLevel]
    cases ht : tryCatSplit C (C.length - 1) with
    | none => rw [ht] at hs; cases hs
    | some pr =>
      obtain ⟨cat0, lvl0⟩ := pr
      obtain ⟨hC0, _⟩ := tryCatSplit_sound ht
      obtain ⟨hcat, hlvl⟩ := goodSplit_unique hC0 hC
      rw [hcat, hlvl]

theorem dropWhile_nil_of_all {p : Char → Bool} {w : List Char}
    (h : ∀ c ∈ w, p c = true) : w.dropWhile p = [] :=
  List.dropWhile_eq_nil_iff.mpr h

theorem dropWhile_all_append {p : Char → Bool} {sp : List Char} {d : Char}
    (X : List Char) (hsp : ∀ c ∈ sp, p c = true) (hd : p d = false) :
    (sp ++ d :: X).dropWhile p = d :: X := by
  induction sp with
  | nil =>
    have hdp : ¬ p d = true := by simp [hd]
    simp [List.dropWhile_cons_of_neg hdp]
  | cons a sp ih =>
    have ha : p a = true := hsp a (by simp)
    rw [List.cons_append, List.dropWhile_cons_of_pos ha]
    exact ih fun c hc => hsp c (by simp [hc])

theorem matchHeader_some_iff {line ts cat : List Char} {lvl : Level} :
    matchHeader line = some (ts, cat, lvl) ↔
      ∃ sp rest,
        line =
          '[' :: (ts ++ ']' ::
            (sp ++ '[' :: (cat ++ '/' :: (levelChars lvl ++ ']' :: rest)))) ∧
        ts ≠ [] ∧ ']' ∉ ts ∧ (∀ c ∈ sp, pyIsSpace c = true) ∧
        cat ≠ [] ∧ ']' ∉ cat := by
  constructor
  · intro h
    match line with
    | [] => simp [matchHeader] at h
    | c :: r1 =>
      by_cases hc : c = '['
      case neg => simp [matchHeader, hc] at h
      subst hc
      rw [matchHeader] at h
      rw [if_pos rfl] at h
      cases hs : splitAtRB r1 with
      | none => rw [hs] at h; cases h
      | some pr =>
        obtain ⟨ts0, r2⟩ := pr
        rw [hs] at h
        dsimp only at h
        by_cases hts : ts0 = []
        case pos => rw [if_pos hts] at h; cases h
        rw [if_neg hts] at h
        cases hdw : r2.dropWhile pyIsSpace with
        | nil => rw [hdw] at h; cases h
        | cons d r3 =>
          rw [hdw] at h
          dsimp only at h
          by_cases hdl : d = '['
          case neg => rw [if_neg hdl] at h; cases h
          subst hdl
          rw [if_pos rfl] at h
          cases hs2 : splitAtRB r3 with
          | none => rw [hs2] at h; cases h
          | some pr2 =>
            obtain ⟨c2, post⟩ := pr2
            rw [hs2] at h
            dsimp only at h
            cases hm : matchCatLevel c2 with
            | none => rw [hm] at h; cases h
            | some pr3 =>
              obtain ⟨cat0, lvl0⟩ := pr3
              rw [hm] at h
              dsimp only at h
              simp only [Option.some.injEq, Prod.mk.injEq] at h
              obtain ⟨hts0, hcat0, hlvl0⟩ := h
              subst hts0; subst hcat0; subst hlvl0
              obtain ⟨hr1, hts_nin⟩ := splitAtRB_sound hs
              obtain ⟨hr3, hc2_nin⟩ := splitAtRB_sound hs2
              obtain ⟨hc2, hcatne⟩ := matchCatLevel_iff.mp hm
              have hr2 : r2 = r2.takeWhile pyIsSpace ++ '[' :: r3 := by
                conv_lhs => rw [← List.takeWhile_append_dropWhile (p := pyIsSpace) (l := r2)]
                rw [hdw]
              obtain ⟨sp, hsp_mem, hr2'⟩ :
                  ∃ sp, (∀ c ∈ sp, pyIsSpace c = true) ∧ r2 = sp ++ '[' :: r3 :=
                ⟨r2.takeWhile pyIsSpace, fun c hc => List.mem_takeWhile_imp hc, hr2⟩
              refine ⟨sp, post, ?_, hts, hts_nin, hsp_mem, hcatne, ?_⟩
              · rw [hr1, hr2', hr3, hc2]
                simp [List.append_assoc]
              · intro hmem
                exact hc2_nin (by rw [hc2]; simp [hmem])
  · rintro ⟨sp, rest, hline, hts, hts_nin, hsp, hcatne, hcat_nin⟩
    subst hline
    rw [matchHeader]
    rw [if_pos rfl]
    rw [splitAtRB_complete _ hts_nin]
    dsimp only
    rw [if_neg hts]
    rw [dropWhile_all_append _ hsp (by decide)]
    dsimp only
    rw [if_pos rfl]
    have hshape :
        cat ++ '/' :: (levelChars lvl ++ ']' :: rest) =
          (cat ++ '/' :: levelChars lvl) ++ ']' :: rest := by
      simp [List.append_assoc]
    have hnin : ']' ∉ cat ++ '/' :: levelChars lvl := by
      intro hmem
      rcases List.mem_append.mp hmem with hm | hm
      · exact hcat_nin hm
      · rcases List.mem_cons.mp hm with he | hm2
        · cases he
        · exact rb_not_mem_levelChars lvl hm2
    rw [hshape, splitAtRB_complete _ hnin]
    dsimp only
    rw [matchCatLevel_iff.mpr ⟨rfl, hcatne⟩]

/-! ## Trailing whitespace never affects the header match or the boundary
heuristic: both only inspect a prefix of the line that ends at a
non-whitespace character. -/

theorem pyIsSpace_ne_rb {c : Char} (h : pyIsSpace c = true) : c ≠ ']' := by
  intro e; subst e; simp [pyIsSpace] at h

theorem pyIsSpace_ne_lb {c : Char} (h : pyIsSpace c = true) : c ≠ '[' := by
  intro e; subst e; simp [pyIsSpace] at h

theorem splitAtRB_append_right {s y pre post : List Char}
    (hs : splitAtRB s = some (pre, post)) :
    splitAtRB (s ++ y) = some (pre, post ++ y) := by
  obtain ⟨he, hnin⟩ := splitAtRB_sound hs
  rw [he, List.append_assoc, List.cons_append]
  exact splitAtRB_complete _ hnin

theorem dropWhile_append_cons {p : Char → Bool} {l : List Char} {d : Char}
    {r : List Char} (y : List Char) (h : l.dropWhile p = d :: r) :
    (l ++ y).dropWhile p = d :: (r ++ y) := by
  induction l with
  | nil => simp at h
  | cons a l ih =>
    by_cases ha : p a
    · rw [List.dropWhile_cons_of_pos ha] at h
      rw [List.cons_append, List.dropWhile_cons_of_pos ha]
      exact ih h
    · rw [List.dropWhile_cons_of_neg ha] at h
      obtain ⟨hd, hr⟩ := List.cons.inj h
      subst hd; subst hr
      rw [List.cons_append, List.dropWhile_cons_of_neg ha]

theorem dropWhile_append_nil {p : Char → Bool} {l : List Char}
    (y : List Char) (h : l.dropWhile p = []) :
    (l ++ y).dropWhile p = y.dropWhile p := by
  induction l with
  | nil => simp
  | cons a l ih =>
    by_cases ha : p a
    · rw [List.dropWhile_cons_of_pos ha] at h
      rw [List.cons_append, List.dropWhile_cons_of_pos ha]
      exact ih h
    · rw [List.dropWhile_cons_of_neg ha] at h
      cases h

theorem matchHeader_append_space {a w : List Char}
    (hw : ∀ c ∈ w, pyIsSpace c = true) :
    matchHeader (a ++ w) = matchHeader a := by
  have hw_rb : ']' ∉ w := fun hm => pyIsSpace_ne_rb (hw _ hm) rfl
  cases a with
  | nil =>
    rw [List.nil_append]
    cases w with
    | nil => rfl
    | cons c t =>
      have hc : ¬ c = '[' := pyIsSpace_ne_lb (hw c (by simp))
      simp [matchHeader, hc]
  | cons c r1 =>
    by_cases hc : c = '['
    case neg => simp [matchHeader, hc]
    subst hc
    rw [List.cons_append, matchHeader, matchHeader, if_pos rfl, if_pos rfl]
    cases hs : splitAtRB r1 with
    | none =>
      have hnin : ']' ∉ r1 ++ w := by
        intro hm
        rcases List.mem_append.mp hm with hm | hm
        · exact splitAtRB_isNone.mp hs hm
        · exact hw_rb hm
      rw [splitAtRB_isNone.mpr hnin]
    | some pr =>
      obtain ⟨ts, r2⟩ := pr
      rw [splitAtRB_append_right hs]
      dsimp only
      by_cases hts : ts = []
      case pos => rw [if_pos hts, if_pos hts]
      rw [if_neg hts, if_neg hts]
      cases hdw : r2.dropWhile pyIsSpace with
      | nil =>
        have h2 : (r2 ++ w).dropWhile pyIsSpace = [] := by
          rw [dropWhile_append_nil w hdw]
          exact dropWhile_nil_of_all hw
        rw [h2]
      | cons d r3 =>
        rw [dropWhile_append_cons w hdw]
        dsimp only
        by_cases hdl : d = '['
        case neg => rw [if_neg hdl, if_neg hdl]
        subst hdl
        rw [if_pos rfl, if_pos rfl]
        cases hs2 : splitAtRB r3 with
        | none =>
          have hnin : ']' ∉ r3 ++ w := by
            intro hm
            rcases List.mem_append.mp hm with hm | hm
            · exact splitAtRB_isNone.mp hs2 hm
            · exact hw_rb hm
          rw [splitAtRB_isNone.mpr hnin]
        | some pr2 =>
          obtain ⟨c2, post⟩ := pr2
          rw [splitAtRB_append_right hs2]

theorem rstrip_split (s : List Char) :
    ∃ w, s = rstrip s ++ w ∧ ∀ c ∈ w, pyIsSpace c = true := by
  refine ⟨(s.reverse.takeWhile pyIsSpace).reverse, ?_, ?_⟩
  · conv_lhs => rw [← List.reverse_reverse s,
      ← List.takeWhile_append_dropWhile (p := pyIsSpace) (l := s.reverse)]
    rw [List.reverse_append, rstrip]
  · intro c hc
    exact List.mem_takeWhile_imp (List.mem_reverse.mp hc)

theorem matchHeader_rstrip (s : List Char) :
    matchHeader (rstrip s) = matchHeader s := by
  obtain ⟨w, hw, hall⟩ := rstrip_split s
  conv_rhs => rw [hw]
  rw [matchHeader_append_space hall]

theorem leadsWith_lb_space {w : List Char}
    (hw : ∀ c ∈ w, pyIsSpace c = true) : leadsWith ['['] w = false := by
  cases w with
  | nil => rfl
  | cons d t =>
    have hd : ¬ ('[' = d) := fun e => pyIsSpace_ne_lb (hw d (by simp)) e.symm
    simp [leadsWith, hd]

theorem leadsWith_sp_lb_space {w : List Char}
    (hw : ∀ c ∈ w, pyIsSpace c = true) : leadsWith [' ', '['] w = false := by
  cases w with
  | nil => rfl
  | cons d t =>
    have ht : ∀ c ∈ t, pyIsSpace c = true := fun c hc => hw c (by simp [hc])
    simp [leadsWith, leadsWith_lb_space ht]

theorem leadsWith_boundary_append {w : List Char}
    (hw : ∀ c ∈ w, pyIsSpace c = true) :
    ∀ x : List Char,
      leadsWith [']', ' ', '['] (x ++ w) = leadsWith [']', ' ', '['] x
  | [] => by
    rw [List.nil_append]
    cases w with
    | nil => rfl
    | cons c t =>
      have hc : ¬ (']' = c) := fun e => pyIsSpace_ne_rb (hw c (by simp)) e.symm
      simp [leadsWith, hc]
  | [c1] => by
    simp [leadsWith, leadsWith_sp_lb_space hw]
  | [c1, c2] => by
    simp [leadsWith, leadsWith_lb_space hw]
  | c1 :: c2 :: c3 :: t => by
    simp [leadsWith]

theorem hasSub_boundary_space {w : List Char}
    (hw : ∀ c ∈ w, pyIsSpace c = true) :
    hasSub [']', ' ', '['] w = false := by
  induction w with
  | nil => rfl
  | cons c t ih =>
    have hc : ¬ (']' = c) := fun e => pyIsSpace_ne_rb (hw c (by simp)) e.symm
    have ht : ∀ c ∈ t, pyIsSpace c = true := fun c hc2 => hw c (by simp [hc2])
    rw [hasSub]
    simp [leadsWith, hc, ih ht]

theorem hasSub_boundary_append {a w : List Char}
    (hw : ∀ c ∈ w, pyIsSpace c = true) :
    hasSub [']', ' ', '['] (a ++ w) = hasSub [']', ' ', '['] a := by
  induction a with
  | nil => rw [List.nil_append, hasSub_boundary_space hw]; rfl
  | cons c t ih =>
    rw [List.cons_append, hasSub, hasSub, ← List.cons_append,
      leadsWith_boundary_append hw, ih]

theorem startsLB_append_space {a w : List Char}
    (hw : ∀ c ∈ w, pyIsSpace c = true) :
    startsLB (a ++ w) = startsLB a := by
  cases a with
  | nil =>
    rw [List.nil_append]
    cases w with
    | nil => rfl
    | cons c t =>
      have hc : ¬ (c = '[') := pyIsSpace_ne_lb (hw c (by simp))
      simp [startsLB, hc]
  | cons c t => rfl

theorem boundary_append_space {a w : List Char}
    (hw : ∀ c ∈ w, pyIsSpace c = true) :
    boundary (a ++ w) = boundary a := by
  rw [boundary, boundary, startsLB_append_space hw, hasSub_boundary_append hw]

theorem boundary_rstrip (s : List Char) : boundary (rstrip s) = boundary s := by
  obtain ⟨w, hw, hall⟩ := rstrip_split s
  conv_rhs => rw [hw]
  rw [boundary_append_space hall]

/-! ## Folding invariants of the segmentation loop -/

theorem allContent_append (a b : List LogEntry) :
    allContent (a ++ b) = allContent a ++ allContent b := by
  induction a with
  | nil => rfl
  | cons e a ih =>
    rw [List.cons_append, allContent, allContent, ih, List.append_assoc]

theorem flatState_segStep (st : List LogEntry × Option LogEntry)
    (p : Nat × List Char) :
    List.Sublist (flatState (segStep st p)) (flatState st ++ [rstrip p.2]) := by
  obtain ⟨acc, cur⟩ := st
  rw [segStep]
  cases hm : matchHeader p.2 with
  | some tr =>
    obtain ⟨ts, tr2⟩ := tr
    obtain ⟨cat, lvl⟩ := tr2
    dsimp only
    cases cur with
    | some e =>
      simp only [flatState, allContent_append, allContent, openContent,
        List.append_nil, List.append_assoc]
      exact List.Sublist.refl _
    | none =>
      simp only [flatState, allContent, openContent, List.nil_append,
        List.append_assoc]
      exact List.Sublist.refl _
  | none =>
    dsimp only
    cases cur with
    | some e =>
      dsimp only
      by_cases hb : boundary p.2
      · rw [if_pos hb]
        simp only [flatState, allContent_append, allContent, openContent,
          List.append_nil, List.append_assoc]
        exact List.Sublist.append (List.Sublist.refl _)
          (List.sublist_append_left _ _)
      · rw [if_neg hb]
        simp only [flatState, allContent, openContent, List.append_assoc]
        exact List.Sublist.refl _
    | none =>
      simp only [flatState, openContent, List.append_nil]
      exact List.sublist_append_left _ _

theorem flatState_segRun (lines : List (List Char)) :
    ∀ (i : Nat) (st : List LogEntry × Option LogEntry),
      List.Sublist (flatState (segRun i st lines))
        (flatState st ++ lines.map rstrip) := by
  induction lines with
  | nil => intro i st; simp [segRun]
  | cons line rest ih =>
    intro i st
    rw [segRun]
    have h1 := ih (i + 1) (segStep st (i, line))
    have h3 :
        List.Sublist (flatState (segStep st (i, line)) ++ rest.map rstrip)
          ((flatState st ++ [rstrip line]) ++ rest.map rstrip) :=
      List.Sublist.append (flatState_segStep st (i, line))
        (List.Sublist.refl _)
    have h4 := h1.trans h3
    rw [List.append_assoc] at h4
    simpa using h4

theorem allContent_close (st : List LogEntry × Option LogEntry) :
    allContent
        (match st.2 with
          | some e => st.1 ++ [e]
          | none => st.1) =
      flatState st := by
  obtain ⟨acc, cur⟩ := st
  cases cur with
  | some e => simp [allContent_append, allContent, flatState, openContent]
  | none => simp [allContent, flatState, openContent]

theorem segStep_shift (prev a : List LogEntry) (c : Option LogEntry)
    (p : Nat × List Char) :
    segStep (prev ++ a, c) p =
      (prev ++ (segStep (a, c) p).1, (segStep (a, c) p).2) := by
  rw [segStep, segStep]
  cases matchHeader p.2 with
  | some tr =>
    obtain ⟨ts, tr2⟩ := tr
    obtain ⟨cat, lvl⟩ := tr2
    dsimp only
    cases c with
    | some e => simp [List.append_assoc]
    | none => simp
  | none =>
    dsimp only
    cases c with
    | some e =>
      by_cases hb : boundary p.2 <;> simp [hb, List.append_assoc]
    | none => simp

theorem segRun_shift (lines : List (List Char)) :
    ∀ (i : Nat) (prev a : List LogEntry) (c : Option LogEntry),
      segRun i (prev ++ a, c) lines =
        (prev ++ (segRun i (a, c) lines).1, (segRun i (a, c) lines).2) := by
  induction lines with
  | nil => intro i prev a c; simp [segRun]
  | cons line rest ih =>
    intro i prev a c
    rw [segRun, segRun, segStep_shift]
    have h := ih (i + 1) prev (segStep (a, c) (i, line)).1
      (segStep (a, c) (i, line)).2
    simpa using h

/-! ## Demonstration inputs used by witnesses and counterexamples -/

/-- C2: while an accumulator is open, a non-header line that starts with `[`
and contains `] [` closes the current entry (appending it unchanged to the
output), is added to no entry's content, and opens no new entry. -/
theorem C2_boundary_closes (acc : List LogEntry) (e : LogEntry) (i : Nat)
    (line : List Char) (hm : matchHeader line = none)
    (hb : boundary line = true) :
    segStep (acc, some e) (i, line) = (acc ++ [e], none) := by
  simp [segStep, hm, hb]

/-- Witness for C2 at a concrete WARN entry and a concrete INFO boundary
line. -/
theorem C2_boundary_closes_witness :
    segStep ([], some demoEntryW) (1, demoInfoLine) = ([demoEntryW], none) :=
  C2_boundary_closes [] demoEntryW 1 demoInfoLine (by decide) (by decide)

/-- C3: the concatenated contents of all produced entries form a sublist of
the input lines (trimmed of trailing whitespace, as every stored line is):
no line is reordered, none is duplicated across entries, and every input line
lands in at most one entry's content. -/
theorem C3_content_sublist (lines : List (List Char)) :
    List.Sublist (allContent (segmentLines lines)) (lines.map rstrip) := by
  have h := flatState_segRun lines 0 ([], none)
  have hc :
      allContent (segmentLines lines) =
        flatState (segRun 0 ([], none) lines) := by
    rw [segmentLines, parseLogEntries]
    exact allContent_close _
  rw [hc]
  simpa [flatState, allContent, openContent] using h

/-- C4 (amended): segmentation is a pure function of the input, and
`parse_log` appends the freshly extracted entries after whatever
`self.entries` already held; with an empty starting state two runs on equal
input give identical output, but `parse_log` itself never clears the stored
entries. -/
theorem C4_parseLog_appends (prev : List LogEntry) (lines : List (List Char)) :
    parseLogEntries prev lines = prev ++ parseLogEntries [] lines := by
  rw [parseLogEntries, parseLogEntries]
  have h := segRun_shift lines 0 prev [] none
  rw [List.append_nil] at h
  rw [h]
  cases (segRun 0 ([], none) lines).2 with
  | some e => simp [List.append_assoc]
  | none => simp

/-- Counterexample to C4 as stated: calling `parse_log` a second time on the
same instance (entries populated by the first call) does not reproduce the
first entry sequence — it appends a duplicate. -/
theorem C4_second_call_differs :
    parseLogEntries (parseLogEntries [] [demoLineW]) [demoLineW] ≠
      parseLogEntries [] [demoLineW] := by decide

/-- C1: a line opens a new entry exactly when it matches the header shape —
bracketed timestamp, then a bracketed `category/LEVEL` with LEVEL literally
WARN, ERROR or FATAL; a matching line always opens a fresh accumulator for
itself, and a non-matching line never opens one. -/
theorem C1_header_opens (line : List Char) :
    ((matchHeader line).isSome ↔ headerSpec line) ∧
    (∀ ts cat lvl i acc cur, matchHeader line = some (ts, cat, lvl) →
      (segStep (acc, cur) (i, line)).2 =
        some { line_number := i + 1, timestamp := ts, category := cat,
               level := lvl, content := [rstrip line] }) ∧
    (∀ i acc, matchHeader line = none →
      (segStep (acc, none) (i, line)).2 = none) := by
  refine ⟨⟨?_, ?_⟩, ?_, ?_⟩
  · intro h
    obtain ⟨tr, htr⟩ := Option.isSome_iff_exists.mp h
    obtain ⟨ts, cat, lvl⟩ := tr
    obtain ⟨sp, rest, hl, h2, h3, h4, h5, h6⟩ := matchHeader_some_iff.mp htr
    exact ⟨ts, sp, cat, lvl, rest, hl, h2, h3, h4, h5, h6⟩
  · rintro ⟨ts, sp, cat, lvl, rest, hl, h2, h3, h4, h5, h6⟩
    rw [matchHeader_some_iff.mpr ⟨sp, rest, hl, h2, h3, h4, h5, h6⟩]
    rfl
  · intro ts cat lvl i acc cur hm
    simp [segStep, hm]
  · intro i acc hm
    simp [segStep, hm]

/-- C5: the only caller-visible negative result of `parse_log` is a missing
input source — it returns `False` exactly when the source is absent (leaving
the stored entries untouched), and on any present input it returns `True`
with the total segmentation pass applied; no line content can make the pass
fail, since it is a total function. -/
theorem C5_missing_source_only (entries0 : List LogEntry)
    (source : Option (List (List Char))) :
    ((parse_log entries0 source).1 = false ↔ source = none) ∧
    (∀ lines, source = some lines →
      parse_log entries0 source = (true, parseLogEntries entries0 lines)) := by
  cases source with
  | none =>
    refine ⟨by simp [parse_log], ?_⟩
    intro lines h
    cases h
  | some lines =>
    refine ⟨by simp [parse_log], ?_⟩
    intro lines2 h
    cases h
    rfl

/-- C8: when input ends with an accumulator still open, that accumulator is
appended to the output; concretely, a header plus two non-bracketed
continuation lines yield exactly one entry whose content has all three
lines. -/
theorem C8_eof_closes (lines : List (List Char)) :
    (∀ a e, segRun 0 ([], none) lines = (a, some e) →
      segmentLines lines = a ++ [e]) ∧
    segmentLines [demoLineW, demoCont1, demoCont2] =
      [{ line_number := 1, timestamp := "12:00:00".toList,
         category := "Server".toList, level := Level.WARN,
         content := [demoLineW, demoCont1, demoCont2] }] := by
  constructor
  · intro a e h
    simp [segmentLines, parseLogEntries, h]
  · decide

/-- C10: the second bracket's capture splits at the last `/` whose following
text is a recognised level ending the bracket: any other qualifying split has
a shorter category, and the two examples of the claim capture category
`A/B` with level WARN, and category `A/WARN` with level FATAL. -/
theorem C10_last_slash_split :
    (∀ C cat lvl, matchCatLevel C = some (cat, lvl) →
      C = cat ++ '/' :: levelChars lvl ∧ cat ≠ [] ∧
      ∀ cat2 lvl2, C = cat2 ++ '/' :: levelChars lvl2 → cat2 ≠ [] →
        cat2.length ≤ cat.length) ∧
    matchHeader ("[t] [A/B/WARN]".toList) =
      some ("t".toList, "A/B".toList, Level.WARN) ∧
    matchHeader ("[t] [A/WARN/FATAL]".toList) =
      some ("t".toList, "A/WARN".toList, Level.FATAL) := by
  refine ⟨?_, by decide, by decide⟩
  intro C cat lvl h
  obtain ⟨hC, hne⟩ := matchCatLevel_iff.mp h
  refine ⟨hC, hne, ?_⟩
  intro cat2 lvl2 hC2 hne2
  obtain ⟨he, _⟩ := goodSplit_unique hC2 hC
  rw [he]

/-! ## The tooling variant: tag scan, flag, and agreement with the base
implementations -/

theorem segStepT_msgs (st : List LogEntryT × List TagMsg × Option LogEntryT)
    (p : Nat × List Char) :
    (segStepT st p).2.1 =
      st.2.1 ++
        (if bioMatch (rstrip p.2) then [⟨p.1 + 1, rstrip p.2⟩] else []) := by
  obtain ⟨es, ms, cur⟩ := st
  cases hm : matchHeader (rstrip p.2) with
  | some tr =>
    obtain ⟨ts, tr2⟩ := tr
    obtain ⟨cat, lvl⟩ := tr2
    cases cur <;> by_cases hb : bioMatch (rstrip p.2) <;>
      simp [segStepT, hm, hb]
  | none =>
    cases cur with
    | some e =>
      by_cases hbd : boundary (rstrip p.2) <;>
        by_cases hb : bioMatch (rstrip p.2) <;>
        simp [segStepT, hm, hbd, hb]
    | none =>
      by_cases hb : bioMatch (rstrip p.2) <;> simp [segStepT, hm, hb]

theorem segRunT_msgs (lines : List (List Char)) :
    ∀ (i : Nat) (st : List LogEntryT × List TagMsg × Option LogEntryT),
      (segRunT i st lines).2.1 = st.2.1 ++ tagScanSpec i lines := by
  induction lines with
  | nil => intro i st; simp [segRunT, tagScanSpec]
  | cons line rest ih =>
    intro i st
    rw [segRunT, tagScanSpec, ih (i + 1) (segStepT st (i, line)),
      segStepT_msgs]
    simp [List.append_assoc]

/-- C6: the tooling variant's flat message list is exactly the independent
scan over ALL input lines — every line containing the filter
case-insensitively, with its 1-based number and rstripped content, whether or
not the line lies inside an entry or is consumed as a boundary marker. -/
theorem C6_tag_scan_all_lines (lines : List (List Char)) :
    (segmentT lines).2 = tagScanSpec 0 lines := by
  show (segRunT 0 ([], [], none) lines).2.1 = tagScanSpec 0 lines
  simpa using segRunT_msgs lines 0 ([], [], none)

theorem segStepT_flag (st : List LogEntryT × List TagMsg × Option LogEntryT)
    (p : Nat × List Char)
    (hes : ∀ e ∈ st.1, e.is_biomepruner = e.content.any bioMatch)
    (hcur : ∀ e, st.2.2 = some e →
      e.is_biomepruner = e.content.any bioMatch) :
    (∀ e ∈ (segStepT st p).1,
      e.is_biomepruner = e.content.any bioMatch) ∧
    (∀ e, (segStepT st p).2.2 = some e →
      e.is_biomepruner = e.content.any bioMatch) := by
  obtain ⟨es, ms, cur⟩ := st
  cases hm : matchHeader (rstrip p.2) with
  | some tr =>
    obtain ⟨ts, tr2⟩ := tr
    obtain ⟨cat, lvl⟩ := tr2
    cases cur with
    | some e =>
      have he := hcur e rfl
      constructor
      · intro e2 he2
        simp [segStepT, hm] at he2
        rcases he2 with h | h
        · exact hes e2 (by simpa using h)
        · rw [h]; exact he
      · intro e2 he2
        simp [segStepT, hm] at he2
        rw [← he2]
        simp
    | none =>
      constructor
      · intro e2 he2
        simp [segStepT, hm] at he2
        exact hes e2 (by simpa using he2)
      · intro e2 he2
        simp [segStepT, hm] at he2
        rw [← he2]
        simp
  | none =>
    cases cur with
    | some e =>
      have he := hcur e rfl
      by_cases hbd : boundary (rstrip p.2)
      · constructor
        · intro e2 he2
          simp [segStepT, hm, hbd] at he2
          rcases he2 with h | h
          · exact hes e2 (by simpa using h)
          · rw [h]; exact he
        · intro e2 he2
          simp [segStepT, hm, hbd] at he2
      · constructor
        · intro e2 he2
          simp [segStepT, hm, hbd] at he2
          exact hes e2 (by simpa using he2)
        · intro e2 he2
          simp [segStepT, hm, hbd] at he2
          rw [← he2]
          simp [he, List.any_append]
    | none =>
      constructor
      · intro e2 he2
        simp [segStepT, hm] at he2
        exact hes e2 (by simpa using he2)
      · intro e2 he2
        simp [segStepT, hm] at he2

theorem segRunT_flag (lines : List (List Char)) :
    ∀ (i : Nat) (st : List LogEntryT × List TagMsg × Option LogEntryT),
      (∀ e ∈ st.1, e.is_biomepruner = e.content.any bioMatch) →
      (∀ e, st.2.2 = some e →
        e.is_biomepruner = e.content.any bioMatch) →
      (∀ e ∈ (segRunT i st lines).1,
        e.is_biomepruner = e.content.any bioMatch) ∧
      (∀ e, (segRunT i st lines).2.2 = some e →
        e.is_biomepruner = e.content.any bioMatch) := by
  induction lines with
  | nil => intro i st h1 h2; exact ⟨h1, h2⟩
  | cons line rest ih =>
    intro i st h1 h2
    rw [segRunT]
    obtain ⟨g1, g2⟩ := segStepT_flag st (i, line) h1 h2
    exact ih (i + 1) _ g1 g2

/-- C7: every entry the tooling variant produces carries
`is_biomepruner = true` exactly when the case-insensitive filter matched its
opening line or one of the continuation lines appended to its content;
boundary-marker lines are in no content list, so they never set the flag. -/
theorem C7_flag_iff_content (lines : List (List Char)) (e : LogEntryT)
    (he : e ∈ (segmentT lines).1) :
    e.is_biomepruner = e.content.any bioMatch := by
  obtain ⟨g1, g2⟩ := segRunT_flag lines 0 ([], [], none)
    (by intro e2 h; cases h) (by intro e2 h; cases h)
  have hmem : e ∈
      (match (segRunT 0 ([], [], none) lines).2.2 with
        | some e0 => (segRunT 0 ([], [], none) lines).1 ++ [e0]
        | none => (segRunT 0 ([], [], none) lines).1) := he
  cases hc : (segRunT 0 ([], [], none) lines).2.2 with
  | some e0 =>
    rw [hc] at hmem
    rcases List.mem_append.mp hmem with h | h
    · exact g1 e h
    · rw [List.mem_singleton.mp h]
      exact g2 e0 hc
  | none =>
    rw [hc] at hmem
    exact g1 e hmem

/-- Witness for C7 at a concrete tagged entry. -/
theorem C7_flag_iff_content_witness :
    demoBioEntry.is_biomepruner = demoBioEntry.content.any bioMatch :=
  C7_flag_iff_content [demoBioLine] demoBioEntry (by decide)

theorem segStepT_base (st : List LogEntryT × List TagMsg × Option LogEntryT)
    (p : Nat × List Char) :
    (segStepT st p).1.map LogEntryT.toBase =
        (segStep (st.1.map LogEntryT.toBase,
          st.2.2.map LogEntryT.toBase) p).1 ∧
    (segStepT st p).2.2.map LogEntryT.toBase =
        (segStep (st.1.map LogEntryT.toBase,
          st.2.2.map LogEntryT.toBase) p).2 := by
  obtain ⟨es, ms, cur⟩ := st
  have hmh : matchHeader (rstrip p.2) = matchHeader p.2 := matchHeader_rstrip p.2
  have hbd : boundary (rstrip p.2) = boundary p.2 := boundary_rstrip p.2
  cases hm : matchHeader p.2 with
  | some tr =>
    obtain ⟨ts, tr2⟩ := tr
    obtain ⟨cat, lvl⟩ := tr2
    cases cur with
    | some e => simp [segStepT, segStep, hmh, hm, LogEntryT.toBase]
    | none => simp [segStepT, segStep, hmh, hm, LogEntryT.toBase]
  | none =>
    cases cur with
    | some e =>
      by_cases hb : boundary p.2
      · simp [segStepT, segStep, hmh, hm, hbd, hb, LogEntryT.toBase]
      · simp [segStepT, segStep, hmh, hm, hbd, hb, LogEntryT.toBase]
    | none => simp [segStepT, segStep, hmh, hm, LogEntryT.toBase]

theorem segRunT_base (lines : List (List Char)) :
    ∀ (i : Nat) (st : List LogEntryT × List TagMsg × Option LogEntryT),
      (segRunT i st lines).1.map LogEntryT.toBase =
          (segRun i (st.1.map LogEntryT.toBase,
            st.2.2.map LogEntryT.toBase) lines).1 ∧
      (segRunT i st lines).2.2.map LogEntryT.toBase =
          (segRun i (st.1.map LogEntryT.toBase,
            st.2.2.map LogEntryT.toBase) lines).2 := by
  induction lines with
  | nil => intro i st; exact ⟨rfl, rfl⟩
  | cons line rest ih =>
    intro i st
    rw [segRunT, segRun]
    have hstep := segStepT_base st (i, line)
    have hrest := ih (i + 1) (segStepT st (i, line))
    rw [hstep.1, hstep.2] at hrest
    exact hrest

theorem segmentT_base (lines : List (List Char)) :
    (segmentT lines).1.map LogEntryT.toBase = segmentLines lines := by
  obtain ⟨h1, h2⟩ := segRunT_base lines 0 ([], [], none)
  simp only [List.map_nil, Option.map_none'] at h1 h2
  show (match (segRunT 0 ([], [], none) lines).2.2 with
      | some e => (segRunT 0 ([], [], none) lines).1 ++ [e]
      | none => (segRunT 0 ([], [], none) lines).1).map LogEntryT.toBase =
    (match (segRun 0 ([], none) lines).2 with
      | some e => (segRun 0 ([], none) lines).1 ++ [e]
      | none => (segRun 0 ([], none) lines).1)
  cases hc : (segRunT 0 ([], [], none) lines).2.2 with
  | some e =>
    have hc2 : (segRun 0 ([], none) lines).2 = some e.toBase := by
      rw [← h2, hc]; rfl
    rw [hc2]
    simp only [List.map_append, List.map_cons, List.map_nil]
    rw [h1]
  | none =>
    have hc2 : (segRun 0 ([], none) lines).2 = none := by
      rw [← h2, hc]; rfl
    rw [hc2]
    exact h1

theorem segStepRT_eq_segStep : segStepRT = segStep := rfl

theorem segRunRT_eq_segRun (lines : List (List Char)) :
    ∀ (i : Nat) (st : List LogEntry × Option LogEntry),
      segRunRT i st lines = segRun i st lines := by
  induction lines with
  | nil => intro i st; rfl
  | cons line rest ih =>
    intro i st
    rw [segRunRT, segRun, segStepRT_eq_segStep]
    exact ih (i + 1) _

theorem segmentRT_eq (lines : List (List Char)) :
    segmentRT lines = segmentLines lines := by
  rw [segmentRT, segmentLines, parseLogEntries]
  rw [segRunRT_eq_segRun]

/-- C9: on every input, the three near-duplicate implementations agree:
`run_automated_tests.py` extracts exactly the entries of
`minecraft_log_parser.py`, and `log_parser.py`'s entries — though matched
against the rstripped line — also coincide field for field (line number,
timestamp, category, level, content) once its extra flag is forgotten. -/
theorem C9_three_implementations_agree (lines : List (List Char)) :
    segmentRT lines = segmentLines lines ∧
    (segmentT lines).1.map LogEntryT.toBase = segmentLines lines := by
  exact ⟨segmentRT_eq lines, segmentT_base lines⟩
